import Mathlib

/-!
Verification development for the `vbackup` incremental backup tool
(`src/vbackup.py`).  The Python source is shallowly embedded below:

* `BackupFile` / `BackupVersion` mirror the classes of the same names.
  A version id is the string `YYYY-MM-DD-HHMMSS` derived from the build
  time by `strftime`; here it is modelled by the build time itself
  (a `Nat`), an injective rendering of the same data.
* `buildTime` models lines 158-159 of `Backup.build` (wall clock,
  bumped past the newest version's time).
* `scanStep` / `buildVersion` model the differ loop of `Backup.build`
  (lines 200-211): each scanned file either reuses the previous
  version's entry or becomes a new entry owned by the working version.
  `files` is a name-keyed dict in the source; it is modelled as a list
  whose names are unique (one `os.walk` visit per file).
* `saveTar` models the member appends of `Backup.save`, `restoreVersion`
  and `trimArchive` model `Backup.restore` and `Backup.trim`, and
  `pruneLoop` models the directory-pruning loop of `Backup.build`,
  including the `list.remove` semantics of Python (`ValueError` when the
  value is absent, here `Except.error`).
* File modification times are floats in the source and are only ever
  compared for equality; they are modelled as `Int`.
-/

/-- Mirrors class `BackupFile` (src/vbackup.py:103-109).  The `path`
attribute is build-machinery (where to read the bytes from) and carries
no archive state, so it is omitted. -/
structure BackupFile where
  name : String
  size : Nat
  mod : Int
  location : Nat
deriving DecidableEq, Repr

/-- Mirrors class `BackupVersion` (src/vbackup.py:73-101). The `info` and
`data` attributes are the member-name strings derived from `id`; they are
recomputed by `dataName`/`verName` below. -/
structure BackupVersion where
  id : Nat
  num : Nat
  time : Nat
  size : Nat
  sizedelta : Nat
  newfiles : Nat
  files : List BackupFile
deriving DecidableEq, Repr

/-- `BackupVersion()` with all defaults (id None, time 0, empty files),
as used for `self.lastver` of a fresh archive. -/
def emptyVersion : BackupVersion :=
  { id := 0, num := 0, time := 0, size := 0, sizedelta := 0, newfiles := 0, files := [] }

/-- Sum of the `size` fields of a list of file entries. -/
def sumSize (l : List BackupFile) : Nat :=
  (l.map (fun f => f.size)).sum

/-- Lines 158-159 of `Backup.build`: the working version's time is the
rounded wall clock `now`, bumped to `lastver.time + 1` whenever the wall
clock does not exceed the newest version's time. -/
def buildTime (now last : Nat) : Nat :=
  if now ≤ last then last + 1 else now

/-- One file produced by the scanner: archive name, size and mtime
(the `frel_arc`, `stat.st_size`, `stat.st_mtime` of the walk loop). -/
structure ScanFile where
  name : String
  size : Nat
  mod : Int
deriving DecidableEq, Repr

/-- Dict lookup `lfiles[frel_arc]` on the previous version's `files`. -/
def findFile (lfiles : List BackupFile) (n : String) : Option BackupFile :=
  lfiles.find? (fun p => p.name = n)

/-- The `else` path of the differ (lines 207-211): record a new entry
owned by the working version and grow both size counters. -/
def addNewFile (vid : Nat) (cur : BackupVersion) (s : ScanFile) : BackupVersion :=
  { cur with
    size := cur.size + s.size,
    sizedelta := cur.sizedelta + s.size,
    newfiles := cur.newfiles + 1,
    files := cur.files ++ [{ name := s.name, size := s.size, mod := s.mod, location := vid }] }

/-- Lines 200-211 of `Backup.build`: classify one scanned file against
the previous version's entries.  An exact (name, mod, size) match reuses
the previous entry (keeping its `location`) and counts only towards
`size`; anything else becomes a new entry via `addNewFile`. -/
def scanStep (vid : Nat) (lfiles : List BackupFile) (cur : BackupVersion) (s : ScanFile) :
    BackupVersion :=
  match findFile lfiles s.name with
  | some existing =>
    if s.mod = existing.mod ∧ s.size = existing.size then
      { cur with files := cur.files ++ [existing], size := cur.size + s.size }
    else addNewFile vid cur s
  | none => addNewFile vid cur s

/-- The whole differ loop of `Backup.build`: fold `scanStep` over the
scanner output, starting from the fresh working version whose id and
time are the (rendered) build time `t`. -/
def buildVersion (lfiles : List BackupFile) (t : Nat) (scan : List ScanFile) : BackupVersion :=
  scan.foldl (scanStep t lfiles)
    { id := t, num := 0, time := t, size := 0, sizedelta := 0, newfiles := 0, files := [] }

/-- C5: For every build on an archive with a prior newest version, the
working version's time is strictly greater than the prior newest
version's time, and when the rounded wall clock does not exceed it the
time is the prior newest version's time plus one second. -/
theorem build_time_strictly_increases (now last : Nat) :
    last < buildTime now last ∧ (now ≤ last → buildTime now last = last + 1) := by
  constructor
  · by_cases h : now ≤ last
    · simp [buildTime, h]
    · simp only [buildTime, if_neg h]
      omega
  · intro h
    simp [buildTime, h]

theorem build_time_strictly_increases_witness :
    (5 : Nat) < buildTime 3 5 ∧ buildTime 3 5 = 5 + 1 :=
  ⟨(build_time_strictly_increases 3 5).1,
   (build_time_strictly_increases 3 5).2 (by decide)⟩

/-- If mapping `g` over a list yields no duplicates, `g` is injective on
the list's elements. -/
theorem nodup_map_inj {α β : Type} (g : α → β) :
    ∀ (l : List α), (l.map g).Nodup → ∀ a ∈ l, ∀ b ∈ l, g a = g b → a = b := by
  intro l
  induction l with
  | nil => intro _ a ha; cases ha
  | cons x xs ih =>
    intro hl a ha b hb hab
    rw [List.map_cons, List.nodup_cons] at hl
    rcases List.mem_cons.mp ha with rfl | ha'
    · rcases List.mem_cons.mp hb with rfl | hb'
      · rfl
      · exact absurd (by rw [hab]; exact List.mem_map_of_mem g hb') hl.1
    · rcases List.mem_cons.mp hb with rfl | hb'
      · exact absurd (by rw [← hab]; exact List.mem_map_of_mem g ha') hl.1
      · exact ih hl.2 a ha' b hb' hab

/-- Dict lookup by a name that is present finds exactly the stored entry
when the names are unique. -/
theorem findFile_eq_some_of_mem (lfiles : List BackupFile) (p : BackupFile)
    (hnd : (lfiles.map (fun f => f.name)).Nodup) (hp : p ∈ lfiles) :
    findFile lfiles p.name = some p := by
  cases hfind : findFile lfiles p.name with
  | none =>
    simp only [findFile] at hfind
    have := List.find?_eq_none.mp hfind p hp
    simp at this
  | some q =>
    simp only [findFile] at hfind
    have hq : q ∈ lfiles := List.mem_of_find?_eq_some hfind
    have hqn : q.name = p.name := by simpa using List.find?_some hfind
    rw [nodup_map_inj (fun f => f.name) lfiles hnd q hq p hp hqn]

/-- C3: the differ's classification.  With the previous map's names
unique (it is a dict), a scanned file whose name, mtime and size all
match a previous entry `p` is emitted as a reused entry (entry `p`
itself, keeping its location) and adds its size to `size` only; a
scanned file matching no previous entry in this way is emitted as a new
entry located in the working version, adding its size to both `size`
and `sizedelta`. -/
theorem differ_classification (vid : Nat) (lfiles : List BackupFile)
    (cur : BackupVersion) (s : ScanFile)
    (hnd : (lfiles.map (fun f => f.name)).Nodup) :
    (∀ p ∈ lfiles, p.name = s.name → p.mod = s.mod → p.size = s.size →
      scanStep vid lfiles cur s =
        { cur with files := cur.files ++ [p], size := cur.size + s.size }) ∧
    ((∀ p ∈ lfiles, ¬(p.name = s.name ∧ p.mod = s.mod ∧ p.size = s.size)) →
      scanStep vid lfiles cur s =
        { cur with
          size := cur.size + s.size,
          sizedelta := cur.sizedelta + s.size,
          newfiles := cur.newfiles + 1,
          files := cur.files ++ [{ name := s.name, size := s.size, mod := s.mod, location := vid }] }) := by
  constructor
  · intro p hp hname hmod hsize
    have hfind : findFile lfiles s.name = some p :=
      hname ▸ findFile_eq_some_of_mem lfiles p hnd hp
    have hc : s.mod = p.mod ∧ s.size = p.size := ⟨hmod.symm, hsize.symm⟩
    simp only [scanStep, hfind]
    rw [if_pos hc]
  · intro hnone
    cases hfind : findFile lfiles s.name with
    | none => simp only [scanStep, hfind, addNewFile]
    | some p =>
      have hp : p ∈ lfiles := List.mem_of_find?_eq_some (by simpa [findFile] using hfind)
      have hname : p.name = s.name := by
        have hx : List.find? (fun q => decide (q.name = s.name)) lfiles = some p := by
          simpa [findFile] using hfind
        have := List.find?_some hx
        simpa using this
      have hne : ¬(s.mod = p.mod ∧ s.size = p.size) := by
        intro hniq
        exact hnone p hp ⟨hname, hniq.1.symm, hniq.2.symm⟩
      simp only [scanStep, hfind]
      rw [if_neg hne]
      simp only [addNewFile]

/-- One step of `max(key=time)`: how `sorted(..., key=time)[-1]` picks
the newest version in `Backup.load` (lines 150-153).  Ties keep the
later element, matching the stability of `sorted`. -/
def latestStep (acc v : BackupVersion) : BackupVersion :=
  if acc.time ≤ v.time then v else acc

/-- `self.lastver` after `load`: the version with the greatest time
(`emptyVersion` when there are none, as in `Backup.__init__`). -/
def latestVersion (vs : List BackupVersion) : BackupVersion :=
  vs.foldl latestStep emptyVersion

theorem time_le_foldl_latest (l : List BackupVersion) :
    ∀ e : BackupVersion, e.time ≤ (l.foldl latestStep e).time := by
  induction l with
  | nil => intro e; exact le_refl _
  | cons v t ih =>
    intro e
    have h1 : e.time ≤ (latestStep e v).time := by
      simp only [latestStep]; split <;> omega
    exact le_trans h1 (ih (latestStep e v))

theorem mem_time_le_latest (l : List BackupVersion) :
    ∀ e : BackupVersion, ∀ v ∈ l, v.time ≤ (l.foldl latestStep e).time := by
  induction l with
  | nil => intro e v hv; cases hv
  | cons w t ih =>
    intro e v hv
    rcases List.mem_cons.mp hv with rfl | hv'
    · have h1 : v.time ≤ (latestStep e v).time := by
        simp only [latestStep]; split <;> omega
      exact le_trans h1 (time_le_foldl_latest t (latestStep e v))
    · exact ih (latestStep e w) v hv'

theorem foldl_latest_mem (l : List BackupVersion) :
    ∀ e : BackupVersion, l.foldl latestStep e ∈ l ∨ l.foldl latestStep e = e := by
  induction l with
  | nil => intro e; exact Or.inr rfl
  | cons w t ih =>
    intro e
    rw [List.foldl_cons]
    rcases ih (latestStep e w) with h | h
    · exact Or.inl (List.mem_cons_of_mem w h)
    · rw [h]
      by_cases hc : e.time ≤ w.time
      · left
        simp only [latestStep, if_pos hc]
        exact List.mem_cons_self w t
      · right
        simp only [latestStep, if_neg hc]

theorem differ_classification_witness :
    scanStep 7 [{ name := "a", size := 4, mod := 9, location := 3 }]
        emptyVersion { name := "a", size := 4, mod := 9 } =
      { emptyVersion with
        files := emptyVersion.files ++ [{ name := "a", size := 4, mod := 9, location := 3 }],
        size := emptyVersion.size + 4 } :=
  (differ_classification 7 [{ name := "a", size := 4, mod := 9, location := 3 }]
      emptyVersion { name := "a", size := 4, mod := 9 } (by decide)).1
    { name := "a", size := 4, mod := 9, location := 3 } (by decide) rfl rfl rfl

/-- Tar member name `versions/<id>/data.zip` (`BackupVersion.set_id`). -/
def dataName (i : Nat) : String :=
  "versions/" ++ toString i ++ "/data.zip"

/-- Tar member name `versions/<id>/version.json` (`BackupVersion.set_id`). -/
def verName (i : Nat) : String :=
  "versions/" ++ toString i ++ "/version.json"

/-- The `savelist` of `Backup.save` (line 225): entries owned by the
working version, i.e. whose `location` is the working version's id. -/
def ownedFiles (cur : BackupVersion) : List BackupFile :=
  cur.files.filter (fun f => f.location = cur.id)

/-- `Backup.save` (lines 216-245) at the level of the tar member-name
sequence: when the owned set is empty nothing is appended; otherwise the
data bundle is appended, then `info.json` if (and only if) no member of
that name exists yet, then the version manifest. -/
def saveTar (t : List String) (cur : BackupVersion) : List String :=
  if ownedFiles cur = [] then t
  else
    let t1 := t ++ [dataName cur.id]
    let t2 := if "info.json" ∈ t1 then t1 else t1 ++ ["info.json"]
    t2 ++ [verName cur.id]

/-- The member-name sequence written by `Backup.trim` (lines 285-316):
the pivot's data bundle, the pivot's manifest, the copied `info.json`,
then each surviving version's data bundle and manifest. -/
def trimTarNames (pivot : BackupVersion) (survivors : List BackupVersion) : List String :=
  dataName pivot.id :: verName pivot.id :: "info.json" ::
    (survivors.map (fun v => [dataName v.id, verName v.id])).flatten

/-- Member-name sequences of archive files producible by the program: a
fresh archive, a `save` append, or a `trim` rewrite (which replaces the
whole file). -/
inductive TarReach : List String → Prop where
  | init : TarReach []
  | save : ∀ (t : List String) (cur : BackupVersion), TarReach t → TarReach (saveTar t cur)
  | trim : ∀ (t : List String) (pivot : BackupVersion) (survivors : List BackupVersion),
      TarReach t → TarReach (trimTarNames pivot survivors)

/-- Number of members named `info.json`. -/
def countInfo (t : List String) : Nat :=
  t.countP (fun s => s = "info.json")

theorem dataName_ne_info (i : Nat) : dataName i ≠ "info.json" := by
  intro h
  have hl := congrArg String.length h
  rw [dataName, String.length_append, String.length_append] at hl
  have h1 : "versions/".length = 9 := by decide
  have h2 : "/data.zip".length = 9 := by decide
  have h3 : "info.json".length = 9 := by decide
  rw [h1, h2, h3] at hl
  omega

theorem verName_ne_info (i : Nat) : verName i ≠ "info.json" := by
  intro h
  have hl := congrArg String.length h
  rw [verName, String.length_append, String.length_append] at hl
  have h1 : "versions/".length = 9 := by decide
  have h2 : "/version.json".length = 13 := by decide
  have h3 : "info.json".length = 9 := by decide
  rw [h1, h2, h3] at hl
  omega

theorem countInfo_append (a b : List String) :
    countInfo (a ++ b) = countInfo a + countInfo b := by
  simp [countInfo, List.countP_append]

theorem countInfo_dataName (i : Nat) : countInfo [dataName i] = 0 := by
  simp [countInfo, List.countP_cons, dataName_ne_info i]

theorem countInfo_verName (i : Nat) : countInfo [verName i] = 0 := by
  simp [countInfo, List.countP_cons, verName_ne_info i]

theorem countInfo_join_names (svs : List BackupVersion) :
    countInfo ((svs.map (fun v => [dataName v.id, verName v.id])).flatten) = 0 := by
  induction svs with
  | nil => rfl
  | cons v t ih =>
    rw [List.map_cons, List.flatten_cons, countInfo_append, ih]
    simp [countInfo, List.countP_cons, dataName_ne_info v.id, verName_ne_info v.id]

/-- C6: when the working version owns no entries, `save` appends
nothing: no data bundle, no `info.json`, no manifest, the archive is
unchanged. -/
theorem save_empty_owned_noop (t : List String) (cur : BackupVersion)
    (h : ownedFiles cur = []) : saveTar t cur = t := by
  simp [saveTar, h]

theorem save_empty_owned_noop_witness :
    saveTar ["info.json"]
      { id := 5, num := 0, time := 5, size := 1, sizedelta := 0, newfiles := 0,
        files := [{ name := "a", size := 1, mod := 10, location := 3 }] } = ["info.json"] :=
  save_empty_owned_noop ["info.json"] _ (by decide)

/-- C8: within a writing `save` the members are appended in the order
data bundle, then `info.json` only when absent, then the manifest; and
along every lifetime of the archive file (saves and trims) at most one
`info.json` member ever exists, so it is never rewritten. -/
theorem save_member_order_info_once :
    (∀ (t : List String) (cur : BackupVersion), ownedFiles cur ≠ [] →
      saveTar t cur =
        ((t ++ [dataName cur.id]) ++ (if "info.json" ∈ t then [] else ["info.json"])) ++
          [verName cur.id]) ∧
    (∀ t : List String, TarReach t → countInfo t ≤ 1) := by
  constructor
  · intro t cur h
    have hmem : ("info.json" ∈ t ++ [dataName cur.id]) ↔ "info.json" ∈ t := by
      simp [List.mem_append, (dataName_ne_info cur.id).symm]
    simp only [saveTar]
    rw [if_neg h]
    by_cases hm : "info.json" ∈ t
    · rw [if_pos (hmem.mpr hm), if_pos hm]
      simp
    · rw [if_neg (fun hc => hm (hmem.mp hc)), if_neg hm]
  · intro t h
    induction h with
    | init => decide
    | save t cur _ ih =>
      by_cases he : ownedFiles cur = []
      · simp only [saveTar]
        rw [if_pos he]
        exact ih
      · simp only [saveTar]
        rw [if_neg he]
        by_cases hm : "info.json" ∈ t ++ [dataName cur.id]
        · rw [if_pos hm]
          rw [countInfo_append, countInfo_append, countInfo_dataName, countInfo_verName]
          omega
        · rw [if_neg hm]
          have hnt : "info.json" ∉ t := fun hc => hm (List.mem_append_left _ hc)
          have hz : countInfo t = 0 := by
            rw [countInfo, List.countP_eq_zero]
            intro a ha hc
            have ha' : a = "info.json" := by simpa using hc
            exact hnt (ha' ▸ ha)
          rw [countInfo_append, countInfo_append, countInfo_append,
            countInfo_dataName, countInfo_verName, hz]
          decide
    | trim t pivot survivors _ _ =>
      rw [trimTarNames]
      simp only [countInfo, List.countP_cons]
      rw [show (List.countP (fun s => decide (s = "info.json"))
            ((survivors.map (fun v => [dataName v.id, verName v.id])).flatten)) =
          countInfo ((survivors.map (fun v => [dataName v.id, verName v.id])).flatten) from rfl,
        countInfo_join_names]
      simp [dataName_ne_info pivot.id, verName_ne_info pivot.id]

theorem save_member_order_info_once_witness :
    saveTar []
        { id := 5, num := 0, time := 5, size := 1, sizedelta := 1, newfiles := 1,
          files := [{ name := "a", size := 1, mod := 10, location := 5 }] } =
      (([] ++ [dataName 5]) ++ (if "info.json" ∈ ([] : List String) then [] else ["info.json"])) ++
        [verName 5] ∧
    countInfo [] ≤ 1 :=
  ⟨save_member_order_info_once.1 []
      { id := 5, num := 0, time := 5, size := 1, sizedelta := 1, newfiles := 1,
        files := [{ name := "a", size := 1, mod := 10, location := 5 }] } (by decide),
   save_member_order_info_once.2 [] TarReach.init⟩

/-- `Backup.restore`'s version selection (lines 248-253): no selector
picks `lastver`; an id selector missing from `self.versions` warns (the
Bool) and falls back to `lastver`; a present id selects that version. -/
def restoreSelect (versions : List BackupVersion) (lastver : BackupVersion)
    (ver : Option Nat) : BackupVersion × Bool :=
  match ver with
  | none => (lastver, false)
  | some i =>
    match versions.find? (fun v => v.id = i) with
    | none => (lastver, true)
    | some v => (v, false)

/-- `Backup.restorenum` (lines 324-331): the first version whose `num`
matches, `none` (an error, no restore) when there is none. -/
def restoreNumSelect (versions : List BackupVersion) (n : Nat) : Option BackupVersion :=
  versions.find? (fun v => v.num = n)

/-- C7: restore selector semantics.  `lastver` is the newest version
(no member is newer); no selector restores it; an unknown id selector
warns and falls back to it; an unknown num selector yields no version
to restore (an error). -/
theorem restore_selector_semantics (vs : List BackupVersion) (i n : Nat) :
    (∀ v ∈ vs, v.time ≤ (latestVersion vs).time) ∧
    restoreSelect vs (latestVersion vs) none = (latestVersion vs, false) ∧
    ((∀ v ∈ vs, v.id ≠ i) →
      restoreSelect vs (latestVersion vs) (some i) = (latestVersion vs, true)) ∧
    ((∀ v ∈ vs, v.num ≠ n) → restoreNumSelect vs n = none) := by
  refine ⟨fun v hv => mem_time_le_latest vs emptyVersion v hv, rfl, ?_, ?_⟩
  · intro h
    have hfind : vs.find? (fun v => v.id = i) = none := by
      rw [List.find?_eq_none]
      intro v hv
      simpa using h v hv
    simp [restoreSelect, hfind]
  · intro h
    rw [restoreNumSelect, List.find?_eq_none]
    intro v hv
    simpa using h v hv

theorem restore_selector_semantics_witness :
    restoreSelect
        [{ id := 1, num := 1, time := 1, size := 0, sizedelta := 0, newfiles := 0, files := [] },
         { id := 2, num := 2, time := 2, size := 0, sizedelta := 0, newfiles := 0, files := [] }]
        (latestVersion
          [{ id := 1, num := 1, time := 1, size := 0, sizedelta := 0, newfiles := 0, files := [] },
           { id := 2, num := 2, time := 2, size := 0, sizedelta := 0, newfiles := 0, files := [] }])
        (some 9) =
      (latestVersion
        [{ id := 1, num := 1, time := 1, size := 0, sizedelta := 0, newfiles := 0, files := [] },
         { id := 2, num := 2, time := 2, size := 0, sizedelta := 0, newfiles := 0, files := [] }], true) ∧
    restoreNumSelect
        [{ id := 1, num := 1, time := 1, size := 0, sizedelta := 0, newfiles := 0, files := [] },
         { id := 2, num := 2, time := 2, size := 0, sizedelta := 0, newfiles := 0, files := [] }] 42 = none :=
  ⟨(restore_selector_semantics _ 9 42).2.2.1 (by decide),
   (restore_selector_semantics _ 9 42).2.2.2 (by decide)⟩

/-- Shell-style glob matching as in `fnmatch.fnmatch` on a POSIX host:
`*` matches any (possibly empty) sequence, `?` any single character,
anything else itself; `/` is an ordinary character.  Character classes
(`[...]`) appear nowhere in this repository's patterns and are not
modelled.  Every recursive call shrinks the measure
`pattern.length + string.length`, so the explicit `fuel` argument (used
with that bound plus one) never runs out; it only makes the recursion
structural. -/
def globMatch : Nat → List Char → List Char → Bool
  | 0, _, _ => false
  | _ + 1, [], s => s.isEmpty
  | fuel + 1, '*' :: ps, s =>
    globMatch fuel ps s ||
      (match s with
       | [] => false
       | _ :: cs => globMatch fuel ('*' :: ps) cs)
  | _ + 1, '?' :: _, [] => false
  | fuel + 1, '?' :: ps, _ :: cs => globMatch fuel ps cs
  | _ + 1, _ :: _, [] => false
  | fuel + 1, c :: ps, d :: cs => (c = d) && globMatch fuel ps cs

/-- `fnmatch.fnmatch(name, pat)` (case-preserving host). -/
def fnmatchB (name pat : String) : Bool :=
  globMatch (pat.length + name.length + 1) pat.toList name.toList

/-- `os.path.dirname` for forward-slash paths: everything before the
last `/`, empty when there is none. -/
def dirname (s : String) : String :=
  let cs := s.toList
  if cs.contains '/' then
    String.mk (((cs.reverse.dropWhile (fun c => c ≠ '/')).drop 1).reverse)
  else ""

/-- `os.path.join(os.path.dirname(i), '*')` as used in the prune test. -/
def joinStar (d : String) : String :=
  if d = "" then "*" else d ++ "/*"

/-- `os.path.normpath(os.path.join(rel, d))` for the walk's relative
root: at the top level `rel` is `"."` and normpath strips it. -/
def relJoin (rel d : String) : String :=
  if rel = "." then d else rel ++ "/" ++ d

/-- `os.path.normpath` on a pattern.  The patterns this development
feeds in are already normalized POSIX paths, on which normpath is the
identity; it is modelled as such. -/
def normpath (s : String) : String := s

/-- `[normpath(i) for i in include] if include else None` (build lines
164-165): an empty argument list becomes `None` (no filtering). -/
def normalizePatterns (l : List String) : Option (List String) :=
  if l.isEmpty then none else some (l.map normpath)

/-- `str.startswith` over the underlying characters. -/
def strStartsWith (s pre : String) : Bool :=
  pre.toList.isPrefixOf s.toList

/-- `'/' in s` (the `os.sep in i` test) over the underlying characters. -/
def strContainsSlash (s : String) : Bool :=
  s.toList.contains '/'

/-- Line 181-183 of `Backup.build`: an include pattern `i` keeps
directory `drel` from being pruned when `i.startswith(drel)`, or `drel`
glob-matches `dirname(i) + '/*'`, or `i` is a bare name (no
separator). -/
def keepInclude (drel i : String) : Bool :=
  strStartsWith i drel || fnmatchB drel (joinStar (dirname i)) || !(strContainsSlash i)

/-- `if include and not [i for i in include if ...]` (lines 181-183):
prune when the include list is truthy and no pattern keeps `drel`. -/
def includePruneCond (incl : Option (List String)) (drel : String) : Bool :=
  match incl with
  | none => false
  | some l => !l.isEmpty && l.all (fun i => !keepInclude drel i)

/-- `if exclude and [e for e in exclude if fnmatch(drel, e)]` (line
185): prune when the exclude list is truthy and some pattern matches. -/
def excludePruneCond (excl : Option (List String)) (drel : String) : Bool :=
  match excl with
  | none => false
  | some l => !l.isEmpty && l.any (fun e => fnmatchB drel e)

instance {ε α : Type} [DecidableEq ε] [DecidableEq α] : DecidableEq (Except ε α) := fun a b =>
  match a, b with
  | .error e, .error f =>
    decidable_of_iff (e = f) (by constructor <;> (intro h; first | rw [h] | (cases h; rfl)))
  | .error _, .ok _ => isFalse (fun h => Except.noConfusion h)
  | .ok _, .error _ => isFalse (fun h => Except.noConfusion h)
  | .ok x, .ok y =>
    decidable_of_iff (x = y) (by constructor <;> (intro h; first | rw [h] | (cases h; rfl)))

/-- Python `list.remove`: drop the first occurrence of `x`, raising
`ValueError` (here `Except.error ()`) when `x` is absent. -/
def listRemove (l : List String) (x : String) : Except Unit (List String) :=
  match l with
  | [] => Except.error ()
  | y :: ys =>
    if y = x then Except.ok ys
    else (listRemove ys x).map (fun r => y :: r)

/-- The body of `for d in reversed(dirs)` (lines 179-186): the include
test and the exclude test each independently call `dirs.remove(d)`. -/
def pruneStep (incl excl : Option (List String)) (rel d : String) (ds : List String) :
    Except Unit (List String) := do
  let drel := relJoin rel d
  let ds1 ← if includePruneCond incl drel then listRemove ds d else pure ds
  if excludePruneCond excl drel then listRemove ds1 d else pure ds1

/-- Run `pruneStep` over a worklist of directory names. -/
def pruneLoop (incl excl : Option (List String)) (rel : String) :
    List String → List String → Except Unit (List String)
  | [], ds => Except.ok ds
  | d :: rest, ds => do
    let ds' ← pruneStep incl excl rel d ds
    pruneLoop incl excl rel rest ds'

/-- The whole pruning pass for one walk entry: iterate over
`reversed(dirs)`, mutating `dirs`. -/
def pruneDirs (incl excl : Option (List String)) (rel : String) (dirs : List String) :
    Except Unit (List String) :=
  pruneLoop incl excl rel dirs.reverse dirs

/-- C9: the pruning step does NOT always complete without raising.
With `include = ['keep/file.txt']` and `exclude = ['junk']`, the
directory `junk` fails the include condition and matches the exclude
pattern, so `dirs.remove('junk')` runs twice; the second call raises
`ValueError` (modelled as `Except.error ()`), aborting the build. -/
theorem prune_double_remove_raises :
    pruneDirs (some ["keep/file.txt"]) (some ["junk"]) "." ["junk", "keep"] =
      Except.error () := by decide

/-- The include/exclude state set by `Backup.build` (lines 164-167):
the values loaded from `info.json` are overwritten with the normalized
call arguments; the loaded values are never consulted. -/
def buildPatterns (loadedIncl loadedExcl : Option (List String))
    (incl excl : List String) : Option (List String) × Option (List String) :=
  (normalizePatterns incl, normalizePatterns excl)

/-- Line 195-198 of `Backup.build`: a scanned file passes the include
filter when no include list is set or some pattern matches. -/
def fileIncludeOk (incl : Option (List String)) (frel : String) : Bool :=
  match incl with
  | none => true
  | some l => l.isEmpty || l.any (fun m => fnmatchB frel m)

/-- Line 197-198: a scanned file passes the exclude filter when no
exclude list is set or no pattern matches. -/
def fileExcludeOk (excl : Option (List String)) (frel : String) : Bool :=
  match excl with
  | none => true
  | some l => l.isEmpty || !(l.any (fun m => fnmatchB frel m))

/-- A scanned file survives both filters. -/
def filePasses (incl excl : Option (List String)) (frel : String) : Bool :=
  fileIncludeOk incl frel && fileExcludeOk excl frel

/-- C10: `build` called with no include/exclude arguments (the CLI's
only mode) stores `None` for both pattern sets regardless of what was
loaded from `info.json`; the filters then used are those of the call
(here: none), so no directory is pruned and every file passes. -/
theorem build_ignores_loaded_patterns
    (loadedIncl loadedExcl : Option (List String)) :
    buildPatterns loadedIncl loadedExcl [] [] = (none, none) ∧
    (∀ loadedIncl2 loadedExcl2 : Option (List String), ∀ incl excl : List String,
      buildPatterns loadedIncl loadedExcl incl excl =
        buildPatterns loadedIncl2 loadedExcl2 incl excl) ∧
    (∀ rel : String, ∀ dirs : List String, pruneDirs none none rel dirs = Except.ok dirs) ∧
    (∀ frel : String, filePasses none none frel = true) := by
  refine ⟨rfl, fun _ _ _ _ => rfl, ?_, fun _ => rfl⟩
  intro rel dirs
  rw [pruneDirs]
  generalize dirs.reverse = work
  induction work generalizing dirs with
  | nil => rfl
  | cons d rest ih =>
    rw [pruneLoop]
    show (pruneStep none none rel d dirs).bind (fun ds2 => pruneLoop none none rel rest ds2) =
      Except.ok dirs
    rw [show pruneStep none none rel d dirs = Except.ok dirs from rfl]
    exact ih dirs

/-- Map a fallible function over a list, failing when any element
fails (the shape of a Python loop that may raise). -/
def mapOpt {α β : Type} (f : α → Option β) : List α → Option (List β)
  | [] => some []
  | x :: xs =>
    match f x, mapOpt f xs with
    | some y, some ys => some (y :: ys)
    | _, _ => none

theorem mapOpt_cons_eq_some {α β : Type} (f : α → Option β) (a : α) (as : List α)
    (ys : List β) (h : mapOpt f (a :: as) = some ys) :
    ∃ y ys', f a = some y ∧ mapOpt f as = some ys' ∧ ys = y :: ys' := by
  rw [mapOpt] at h
  cases hfa : f a with
  | none => rw [hfa] at h; exact Option.noConfusion h
  | some y =>
    cases hmo : mapOpt f as with
    | none => rw [hfa, hmo] at h; exact Option.noConfusion h
    | some ys' =>
      rw [hfa, hmo] at h
      simp only [Option.some.injEq] at h
      exact ⟨y, ys', rfl, rfl, h.symm⟩

theorem mapOpt_forward {α β : Type} (f : α → Option β) :
    ∀ (xs : List α) (ys : List β), mapOpt f xs = some ys →
      ∀ x ∈ xs, ∃ y ∈ ys, f x = some y := by
  intro xs
  induction xs with
  | nil => intro ys _ x hx; cases hx
  | cons a as ih =>
    intro ys h x hx
    obtain ⟨y, ys', hfa, hmo, rfl⟩ := mapOpt_cons_eq_some f a as ys h
    rcases List.mem_cons.mp hx with rfl | hx'
    · exact ⟨y, List.mem_cons_self _ _, hfa⟩
    · obtain ⟨z, hz, hfz⟩ := ih ys' hmo x hx'
      exact ⟨z, List.mem_cons_of_mem _ hz, hfz⟩

theorem mapOpt_backward {α β : Type} (f : α → Option β) :
    ∀ (xs : List α) (ys : List β), mapOpt f xs = some ys →
      ∀ y ∈ ys, ∃ x ∈ xs, f x = some y := by
  intro xs
  induction xs with
  | nil =>
    intro ys h y hy
    rw [mapOpt] at h
    simp only [Option.some.injEq] at h
    subst h
    cases hy
  | cons a as ih =>
    intro ys h y hy
    obtain ⟨z, ys', hfa, hmo, rfl⟩ := mapOpt_cons_eq_some f a as ys h
    rcases List.mem_cons.mp hy with rfl | hy'
    · exact ⟨a, List.mem_cons_self _ _, hfa⟩
    · obtain ⟨x, hx, hfx⟩ := ih ys' hmo y hy'
      exact ⟨x, List.mem_cons_of_mem _ hx, hfx⟩

theorem mapOpt_map_eq {α β γ : Type} (f : α → Option β) (g : α → γ) (g' : β → γ) :
    ∀ (xs : List α) (ys : List β), mapOpt f xs = some ys →
      (∀ x ∈ xs, ∀ y, f x = some y → g' y = g x) → ys.map g' = xs.map g := by
  intro xs
  induction xs with
  | nil =>
    intro ys h _
    rw [mapOpt] at h
    simp only [Option.some.injEq] at h
    subst h
    rfl
  | cons a as ih =>
    intro ys h hpt
    obtain ⟨y, ys', hfa, hmo, rfl⟩ := mapOpt_cons_eq_some f a as ys h
    rw [List.map_cons, List.map_cons,
      hpt a (List.mem_cons_self _ _) y hfa,
      ih ys' hmo (fun x hx => hpt x (List.mem_cons_of_mem _ hx))]

theorem mapOpt_keyed_find {α β κ : Type} [DecidableEq κ] (key : α → κ) (fv : α → Option β) :
    ∀ (xs : List α) (ps : List (κ × β)),
      mapOpt (fun x => (fv x).map (fun b => (key x, b))) xs = some ps →
      (xs.map key).Nodup →
      ∀ x ∈ xs, (ps.find? (fun p => p.1 = key x)).map (fun p => p.2) = fv x := by
  intro xs
  induction xs with
  | nil => intro ps _ _ x hx; cases hx
  | cons a as ih =>
    intro ps h hnd x hx
    obtain ⟨p0, ps', hfa, hmo, rfl⟩ :=
      mapOpt_cons_eq_some (fun x => (fv x).map (fun b => (key x, b))) a as ps h
    rw [List.map_cons, List.nodup_cons] at hnd
    obtain ⟨b0, hb0, rfl⟩ := Option.map_eq_some'.mp hfa
    rcases List.mem_cons.mp hx with rfl | hx'
    · rw [List.find?_cons_of_pos _ (by simp), hb0]
      rfl
    · have hne : key a ≠ key x := by
        intro hc
        exact hnd.1 (hc ▸ List.mem_map_of_mem key hx')
      rw [List.find?_cons_of_neg _ (by simpa using hne)]
      exact ih ps' hmo hnd.2 x hx'

/-- One insertion step of a stable ascending sort by `time`
(`sorted(..., key=lambda v: v.time)`). -/
def insertByTime (x : BackupVersion) : List BackupVersion → List BackupVersion
  | [] => [x]
  | y :: ys => if x.time ≤ y.time then x :: y :: ys else y :: insertByTime x ys

/-- Stable insertion sort by `time`, the sort used by `Backup.load` and
`Backup.trim`. -/
def sortByTime : List BackupVersion → List BackupVersion
  | [] => []
  | x :: xs => insertByTime x (sortByTime xs)

theorem insertByTime_perm (x : BackupVersion) :
    ∀ l : List BackupVersion, (insertByTime x l).Perm (x :: l) := by
  intro l
  induction l with
  | nil => exact List.Perm.refl _
  | cons y ys ih =>
    rw [insertByTime]
    by_cases h : x.time ≤ y.time
    · rw [if_pos h]
    · rw [if_neg h]
      exact (ih.cons y).trans (List.Perm.swap x y ys)

theorem sortByTime_perm : ∀ l : List BackupVersion, (sortByTime l).Perm l := by
  intro l
  induction l with
  | nil => exact List.Perm.refl _
  | cons x xs ih =>
    rw [sortByTime]
    exact (insertByTime_perm x (sortByTime xs)).trans (ih.cons x)

/-- The archive's persistent content as far as restore and trim are
concerned: the version manifests (`versions/<id>/version.json`) and for
each version its data bundle (`versions/<id>/data.zip`), a map from
archive-relative file name to that file's bytes. -/
structure Archive where
  versions : List BackupVersion
  bundles : List (Nat × List (String × List Nat))
deriving DecidableEq, Repr

/-- `self.versions[loc]` lookup. -/
def findVersion (vs : List BackupVersion) (loc : Nat) : Option BackupVersion :=
  vs.find? (fun v => v.id = loc)

/-- `self.versions[f['location']].time` as used by the trim rewrite. -/
def timeOfLoc (vs : List BackupVersion) (loc : Nat) : Option Nat :=
  (findVersion vs loc).map (fun v => v.time)

/-- Opening `versions/<loc>/data.zip` inside the outer tar. -/
def findBundle (a : Archive) (loc : Nat) : Option (List (String × List Nat)) :=
  (a.bundles.find? (fun p => p.1 = loc)).map (fun p => p.2)

/-- Reading one named member out of a data bundle. -/
def lookupName (b : List (String × List Nat)) (n : String) : Option (List Nat) :=
  (b.find? (fun p => p.1 = n)).map (fun p => p.2)

/-- The bytes `Backup.restore` produces for one file entry: member
`f.name` of the data bundle of version `f.location`.  `none` models the
exception raised on a missing bundle or member. -/
def restoreFile (a : Archive) (f : BackupFile) : Option (List Nat) :=
  (findBundle a f.location).bind (fun b => lookupName b f.name)

/-- `Backup.restore` (lines 248-275) of one version: every entry of its
manifest materialised from the bundle its `location` points at.  The
source groups entries by location before extracting; the produced
name-to-bytes association is the same. -/
def restoreVersion (a : Archive) (v : BackupVersion) : List (String × Option (List Nat)) :=
  v.files.map (fun f => (f.name, restoreFile a f))

/-- The pivot manifest written by `Backup.trim` (lines 293-300):
`sizedelta := size` and every entry's `location := pivot.id`. -/
def pivotManifest (pivot : BackupVersion) : BackupVersion :=
  { pivot with
    sizedelta := pivot.size,
    files := pivot.files.map (fun f => { f with location := pivot.id }) }

/-- `sorted([v for v in versions if v.time > pivot.time], key=time)`
(lines 304-308): the surviving newer versions in ascending time order. -/
def survivorsOf (vs : List BackupVersion) (pivot : BackupVersion) : List BackupVersion :=
  sortByTime (vs.filter (fun v => pivot.time < v.time))

/-- The trim rewrite of one manifest entry (lines 313-315): entries
whose location's version is strictly older than the pivot are repointed
at the pivot; `none` models the `KeyError` on an unresolvable
location. -/
def rewriteEntry (vs : List BackupVersion) (pivot : BackupVersion) (f : BackupFile) :
    Option BackupFile :=
  match timeOfLoc vs f.location with
  | none => none
  | some t => some (if t < pivot.time then { f with location := pivot.id } else f)

/-- The trim rewrite of one surviving manifest (lines 311-316): entries
rewritten, everything else (id, time, size, sizedelta) kept. -/
def rewriteVersion (vs : List BackupVersion) (pivot : BackupVersion) (v : BackupVersion) :
    Option BackupVersion :=
  match mapOpt (rewriteEntry vs pivot) v.files with
  | none => none
  | some fs => some { v with files := fs }

/-- The manifests of the trimmed archive, in written order: the pivot's
rewritten manifest, then each survivor's rewritten manifest. -/
def trimManifests (vs : List BackupVersion) (pivot : BackupVersion) :
    Option (List BackupVersion) :=
  match mapOpt (rewriteVersion vs pivot) (survivorsOf vs pivot) with
  | none => none
  | some rewritten => some (pivotManifest pivot :: rewritten)

/-- `Backup.trim` (lines 278-319): the new archive holds a fresh pivot
bundle obtained by restoring every pivot entry from the old archive
(the `self.restore(temp, version.id, to_zip=True)` call), the rewritten
manifests, and each survivor's bundle copied verbatim.  `none` models
any exception, which leaves the original archive in place. -/
def trimArchive (a : Archive) (pivot : BackupVersion) : Option Archive :=
  match mapOpt (fun f => (restoreFile a f).map (fun b => (f.name, b))) pivot.files with
  | none => none
  | some pb =>
    match trimManifests a.versions pivot with
    | none => none
    | some vs' =>
      match mapOpt (fun v => (findBundle a v.id).map (fun b => (v.id, b)))
          (survivorsOf a.versions pivot) with
      | none => none
      | some sbs => some { versions := vs', bundles := (pivot.id, pb) :: sbs }

/-- `find?` by id retrieves exactly a stored version when ids are
unique. -/
theorem findVersion_eq_some_of_mem (vs : List BackupVersion)
    (hids : (vs.map (fun v => v.id)).Nodup) (u : BackupVersion) (hu : u ∈ vs) :
    findVersion vs u.id = some u := by
  cases hfind : findVersion vs u.id with
  | none =>
    simp only [findVersion] at hfind
    have := List.find?_eq_none.mp hfind u hu
    simp at this
  | some q =>
    simp only [findVersion] at hfind
    have hq : q ∈ vs := List.mem_of_find?_eq_some hfind
    have hqn : q.id = u.id := by simpa using List.find?_some hfind
    rw [nodup_map_inj (fun v => v.id) vs hids q hq u hu hqn]

theorem timeOfLoc_of_mem (vs : List BackupVersion)
    (hids : (vs.map (fun v => v.id)).Nodup) (u : BackupVersion) (hu : u ∈ vs) :
    timeOfLoc vs u.id = some u.time := by
  rw [timeOfLoc, findVersion_eq_some_of_mem vs hids u hu]
  rfl

theorem mem_survivorsOf (vs : List BackupVersion) (pivot w : BackupVersion) :
    w ∈ survivorsOf vs pivot ↔ w ∈ vs ∧ pivot.time < w.time := by
  rw [survivorsOf, (sortByTime_perm _).mem_iff, List.mem_filter]
  simp

/-- C2: the manifests `trim` writes.  The pivot's manifest keeps its id
and size but has `sizedelta = size` and every entry relocated to the
pivot; every surviving newer version's manifest keeps id, size and
sizedelta, and each entry is relocated to the pivot exactly when its
original location's version is strictly older than the pivot, and kept
unchanged when its location is the pivot or newer. -/
theorem trim_manifest_rewrite (a : Archive) (pivot : BackupVersion) (a' : Archive)
    (h1 : trimArchive a pivot = some a')
    (hids : (a.versions.map (fun v => v.id)).Nodup) :
    (∃ p' ∈ a'.versions, p'.id = pivot.id ∧ p'.size = pivot.size ∧
      p'.sizedelta = pivot.size ∧
      ∀ f ∈ pivot.files, ∃ f' ∈ p'.files,
        f'.name = f.name ∧ f'.size = f.size ∧ f'.mod = f.mod ∧ f'.location = pivot.id) ∧
    (∀ w ∈ a.versions, pivot.time < w.time →
      ∃ w' ∈ a'.versions, w'.id = w.id ∧ w'.size = w.size ∧ w'.sizedelta = w.sizedelta ∧
        ∀ f ∈ w.files, ∀ u ∈ a.versions, u.id = f.location →
          ∃ f' ∈ w'.files, f'.name = f.name ∧ f'.size = f.size ∧ f'.mod = f.mod ∧
            f'.location = (if u.time < pivot.time then pivot.id else f.location)) := by
  rw [trimArchive] at h1
  cases hpb : mapOpt (fun f => (restoreFile a f).map (fun b => (f.name, b))) pivot.files with
  | none => rw [hpb] at h1; exact Option.noConfusion h1
  | some pb =>
  rw [hpb] at h1
  cases hvs : trimManifests a.versions pivot with
  | none => rw [hvs] at h1; exact Option.noConfusion h1
  | some vs' =>
  rw [hvs] at h1
  cases hsb : mapOpt (fun v => (findBundle a v.id).map (fun b => (v.id, b)))
      (survivorsOf a.versions pivot) with
  | none => rw [hsb] at h1; exact Option.noConfusion h1
  | some sbs =>
  rw [hsb] at h1
  simp only [Option.some.injEq] at h1
  subst h1
  rw [trimManifests] at hvs
  cases hrw : mapOpt (rewriteVersion a.versions pivot) (survivorsOf a.versions pivot) with
  | none => rw [hrw] at hvs; exact Option.noConfusion hvs
  | some rewritten =>
  rw [hrw] at hvs
  simp only [Option.some.injEq] at hvs
  subst hvs
  constructor
  · refine ⟨pivotManifest pivot, List.mem_cons_self _ _, rfl, rfl, rfl, ?_⟩
    intro f hf
    exact ⟨{ f with location := pivot.id },
      List.mem_map_of_mem (fun f => { f with location := pivot.id }) hf, rfl, rfl, rfl, rfl⟩
  · intro w hw hwt
    have hwm : w ∈ survivorsOf a.versions pivot := (mem_survivorsOf _ _ _).mpr ⟨hw, hwt⟩
    obtain ⟨w', hw', hrww⟩ := mapOpt_forward _ _ _ hrw w hwm
    rw [rewriteVersion] at hrww
    cases hfs : mapOpt (rewriteEntry a.versions pivot) w.files with
    | none => rw [hfs] at hrww; exact Option.noConfusion hrww
    | some fs =>
    rw [hfs] at hrww
    simp only [Option.some.injEq] at hrww
    subst hrww
    refine ⟨{ w with files := fs }, List.mem_cons_of_mem _ hw', rfl, rfl, rfl, ?_⟩
    intro f hf u hu hloc
    obtain ⟨f', hf', hre⟩ := mapOpt_forward _ _ _ hfs f hf
    rw [rewriteEntry, ← hloc, timeOfLoc_of_mem a.versions hids u hu] at hre
    simp only [Option.some.injEq] at hre
    subst hre
    by_cases hlt : u.time < pivot.time
    · rw [if_pos hlt] at hf' ⊢
      exact ⟨{ f with location := pivot.id }, hf', rfl, rfl, rfl, rfl⟩
    · rw [if_neg hlt] at hf' ⊢
      exact ⟨f, hf', rfl, rfl, rfl, rfl⟩

/-- A two-version archive: version 1 owns `a`, version 2 reuses `a`
from version 1 and owns `b`. -/
def exampleV1 : BackupVersion :=
  { id := 1, num := 1, time := 1, size := 1, sizedelta := 1, newfiles := 1,
    files := [{ name := "a", size := 1, mod := 10, location := 1 }] }

def exampleV2 : BackupVersion :=
  { id := 2, num := 2, time := 2, size := 2, sizedelta := 1, newfiles := 1,
    files := [{ name := "a", size := 1, mod := 10, location := 1 },
              { name := "b", size := 1, mod := 20, location := 2 }] }

def exampleArchive : Archive :=
  { versions := [exampleV1, exampleV2],
    bundles := [(1, [("a", [65])]), (2, [("b", [66])])] }

/-- The pivot manifest of `exampleV2` after `trim`. -/
def exampleV2Trimmed : BackupVersion :=
  { id := 2, num := 2, time := 2, size := 2, sizedelta := 2, newfiles := 1,
    files := [{ name := "a", size := 1, mod := 10, location := 2 },
              { name := "b", size := 1, mod := 20, location := 2 }] }

/-- `exampleArchive` after `trim` with pivot `exampleV2`. -/
def exampleTrimmed : Archive :=
  { versions := [exampleV2Trimmed],
    bundles := [(2, [("a", [65]), ("b", [66])])] }

theorem trim_manifest_rewrite_witness :
    ∃ p' ∈ exampleTrimmed.versions, p'.id = exampleV2.id ∧ p'.size = exampleV2.size ∧
      p'.sizedelta = exampleV2.size ∧
      ∀ f ∈ exampleV2.files, ∃ f' ∈ p'.files,
        f'.name = f.name ∧ f'.size = f.size ∧ f'.mod = f.mod ∧ f'.location = exampleV2.id :=
  (trim_manifest_rewrite exampleArchive exampleV2 exampleTrimmed (by decide) (by decide)).1

theorem restoreFile_eq_of_match (a : Archive) (f g : BackupFile)
    (hn : g.name = f.name) (hl : g.location = f.location) :
    restoreFile a g = restoreFile a f := by
  rw [restoreFile, restoreFile, hn, hl]

/-- Looking a pivot entry's name up in the freshly built pivot bundle
returns exactly what restoring that entry from the old archive
returned. -/
theorem restoreFile_pb (a : Archive) (pivot : BackupVersion)
    (pb : List (String × List Nat))
    (hpb : mapOpt (fun f => (restoreFile a f).map (fun b => (f.name, b))) pivot.files = some pb)
    (hpn : (pivot.files.map (fun f => f.name)).Nodup)
    (g : BackupFile) (hg : g ∈ pivot.files) :
    lookupName pb g.name = restoreFile a g :=
  mapOpt_keyed_find (fun f : BackupFile => f.name) (fun f => restoreFile a f)
    pivot.files pb hpb hpn g hg

theorem survivors_ids_nodup (vs : List BackupVersion) (pivot : BackupVersion)
    (hids : (vs.map (fun v => v.id)).Nodup) :
    ((survivorsOf vs pivot).map (fun v => v.id)).Nodup := by
  have hperm : (((survivorsOf vs pivot).map (fun v => v.id))).Perm
      ((vs.filter (fun v => pivot.time < v.time)).map (fun v => v.id)) :=
    (sortByTime_perm _).map _
  rw [hperm.nodup_iff]
  exact hids.sublist ((vs.filter_sublist).map (fun v => v.id))

theorem findBundle_trim_pivot (a' : Archive) (pivot : BackupVersion)
    (pb : List (String × List Nat)) (sbs : List (Nat × List (String × List Nat)))
    (hbl : a'.bundles = (pivot.id, pb) :: sbs) :
    findBundle a' pivot.id = some pb := by
  rw [findBundle, hbl, List.find?_cons_of_pos _ (by simp)]
  rfl

theorem findBundle_trim_survivor (a a' : Archive) (pivot u : BackupVersion)
    (pb : List (String × List Nat)) (sbs : List (Nat × List (String × List Nat)))
    (hbl : a'.bundles = (pivot.id, pb) :: sbs)
    (hsb : mapOpt (fun v => (findBundle a v.id).map (fun b => (v.id, b)))
      (survivorsOf a.versions pivot) = some sbs)
    (hids : (a.versions.map (fun v => v.id)).Nodup)
    (hpm : pivot ∈ a.versions)
    (hu : u ∈ a.versions) (hgt : pivot.time < u.time) :
    findBundle a' u.id = findBundle a u.id := by
  have hne : pivot.id ≠ u.id := by
    intro hc
    have := nodup_map_inj (fun v => v.id) a.versions hids pivot hpm u hu hc
    rw [this] at hgt
    omega
  rw [findBundle, hbl, List.find?_cons_of_neg _ (by simpa using hne)]
  have hsnd := survivors_ids_nodup a.versions pivot hids
  have humem : u ∈ survivorsOf a.versions pivot := (mem_survivorsOf _ _ _).mpr ⟨hu, hgt⟩
  exact mapOpt_keyed_find (fun v : BackupVersion => v.id) (fun v => findBundle a v.id)
    (survivorsOf a.versions pivot) sbs hsb hsnd u humem

/-- After a trim, restoring a rewritten entry of a surviving manifest
yields the same bytes as restoring the original entry did before. -/
theorem restoreFile_after_trim (a a' : Archive) (pivot : BackupVersion)
    (pb : List (String × List Nat)) (sbs : List (Nat × List (String × List Nat)))
    (hbl : a'.bundles = (pivot.id, pb) :: sbs)
    (hpb : mapOpt (fun f => (restoreFile a f).map (fun b => (f.name, b))) pivot.files = some pb)
    (hsb : mapOpt (fun v => (findBundle a v.id).map (fun b => (v.id, b)))
      (survivorsOf a.versions pivot) = some sbs)
    (hids : (a.versions.map (fun v => v.id)).Nodup)
    (hpn : (pivot.files.map (fun f => f.name)).Nodup)
    (hpm : pivot ∈ a.versions)
    (htime : ∀ u ∈ a.versions, u.time = pivot.time → u.id = pivot.id)
    (f f' : BackupFile)
    (hchain : ∀ u ∈ a.versions, u.id = f.location → u.time ≤ pivot.time →
      ∃ g ∈ pivot.files, g.name = f.name ∧ g.location = f.location)
    (hre : rewriteEntry a.versions pivot f = some f') :
    restoreFile a' f' = restoreFile a f := by
  rw [rewriteEntry] at hre
  cases hto : timeOfLoc a.versions f.location with
  | none => rw [hto] at hre; exact Option.noConfusion hre
  | some t =>
  rw [hto] at hre
  simp only [Option.some.injEq] at hre
  subst hre
  rw [timeOfLoc] at hto
  cases hfv : findVersion a.versions f.location with
  | none => rw [hfv] at hto; exact Option.noConfusion hto
  | some u0 =>
  rw [hfv] at hto
  simp only [Option.map_some', Option.some.injEq] at hto
  have hu0mem : u0 ∈ a.versions := List.mem_of_find?_eq_some (by simpa [findVersion] using hfv)
  have hu0id : u0.id = f.location := by
    have hx : List.find? (fun v => decide (v.id = f.location)) a.versions = some u0 := by
      simpa [findVersion] using hfv
    simpa using List.find?_some hx
  by_cases hlt : t < pivot.time
  · rw [if_pos hlt]
    obtain ⟨g, hg, hgname, hgloc⟩ :=
      hchain u0 hu0mem hu0id (by omega)
    have h1 : restoreFile a' { f with location := pivot.id } = lookupName pb f.name := by
      show (findBundle a' pivot.id).bind (fun b => lookupName b f.name) = lookupName pb f.name
      rw [findBundle_trim_pivot a' pivot pb sbs hbl]
      rfl
    rw [h1, ← hgname, restoreFile_pb a pivot pb hpb hpn g hg]
    exact restoreFile_eq_of_match a f g hgname hgloc
  · rw [if_neg hlt]
    by_cases heq : t = pivot.time
    · have hpid : f.location = pivot.id := by
        rw [← hu0id]
        exact htime u0 hu0mem (by omega)
      obtain ⟨g, hg, hgname, hgloc⟩ :=
        hchain u0 hu0mem hu0id (by omega)
      have h1 : restoreFile a' f = lookupName pb f.name := by
        show (findBundle a' f.location).bind (fun b => lookupName b f.name) = lookupName pb f.name
        rw [hpid, findBundle_trim_pivot a' pivot pb sbs hbl]
        rfl
      rw [h1, ← hgname, restoreFile_pb a pivot pb hpb hpn g hg]
      exact restoreFile_eq_of_match a f g hgname hgloc
    · have hgt : pivot.time < u0.time := by omega
      have hb := findBundle_trim_survivor a a' pivot u0 pb sbs hbl hsb hids hpm hu0mem hgt
      show (findBundle a' f.location).bind (fun b => lookupName b f.name) = restoreFile a f
      rw [← hu0id, hb, hu0id]
      rfl

/-- C1: trim preservation.  Under the archive invariants (unique ids,
unique names in the pivot manifest, only the pivot carries the pivot's
time, and every entry of a surviving version whose location is the
pivot's version or older also appears in the pivot's manifest with the
same name and location — which holds for archives the program builds,
since reused entries are carried over from the directly preceding
version), every version at or after the pivot restores from the trimmed
archive to exactly the per-name bytes it restored to before the trim. -/
theorem trim_preserves_restore (a : Archive) (pivot : BackupVersion) (a' : Archive)
    (h1 : trimArchive a pivot = some a')
    (hids : (a.versions.map (fun v => v.id)).Nodup)
    (hpn : (pivot.files.map (fun f => f.name)).Nodup)
    (hpm : pivot ∈ a.versions)
    (htime : ∀ u ∈ a.versions, u.time = pivot.time → u.id = pivot.id)
    (hchain : ∀ w ∈ a.versions, pivot.time ≤ w.time → ∀ f ∈ w.files,
      ∀ u ∈ a.versions, u.id = f.location → u.time ≤ pivot.time →
        ∃ g ∈ pivot.files, g.name = f.name ∧ g.location = f.location) :
    ∀ w ∈ a.versions, pivot.time ≤ w.time →
      ∃ w' ∈ a'.versions, w'.id = w.id ∧
        restoreVersion a' w' = restoreVersion a w := by
  rw [trimArchive] at h1
  cases hpb : mapOpt (fun f => (restoreFile a f).map (fun b => (f.name, b))) pivot.files with
  | none => rw [hpb] at h1; exact Option.noConfusion h1
  | some pb =>
  rw [hpb] at h1
  cases hvs : trimManifests a.versions pivot with
  | none => rw [hvs] at h1; exact Option.noConfusion h1
  | some vs' =>
  rw [hvs] at h1
  cases hsb : mapOpt (fun v => (findBundle a v.id).map (fun b => (v.id, b)))
      (survivorsOf a.versions pivot) with
  | none => rw [hsb] at h1; exact Option.noConfusion h1
  | some sbs =>
  rw [hsb] at h1
  simp only [Option.some.injEq] at h1
  subst h1
  rw [trimManifests] at hvs
  cases hrw : mapOpt (rewriteVersion a.versions pivot) (survivorsOf a.versions pivot) with
  | none => rw [hrw] at hvs; exact Option.noConfusion hvs
  | some rewritten =>
  rw [hrw] at hvs
  simp only [Option.some.injEq] at hvs
  subst hvs
  intro w hw hle
  have hbl : (Archive.mk (pivotManifest pivot :: rewritten) ((pivot.id, pb) :: sbs)).bundles =
      (pivot.id, pb) :: sbs := rfl
  rcases Nat.lt_or_ge pivot.time w.time with hlt | hge
  · -- w is a surviving newer version
    have hwm : w ∈ survivorsOf a.versions pivot := (mem_survivorsOf _ _ _).mpr ⟨hw, hlt⟩
    obtain ⟨w', hw', hrww⟩ := mapOpt_forward _ _ _ hrw w hwm
    rw [rewriteVersion] at hrww
    cases hfs : mapOpt (rewriteEntry a.versions pivot) w.files with
    | none => rw [hfs] at hrww; exact Option.noConfusion hrww
    | some fs =>
    rw [hfs] at hrww
    simp only [Option.some.injEq] at hrww
    subst hrww
    refine ⟨{ w with files := fs }, List.mem_cons_of_mem _ hw', rfl, ?_⟩
    show fs.map (fun f => (f.name, restoreFile _ f)) =
      w.files.map (fun f => (f.name, restoreFile a f))
    apply mapOpt_map_eq (rewriteEntry a.versions pivot) _ _ w.files fs hfs
    intro f hf f' hre
    have hname : f'.name = f.name := by
      rw [rewriteEntry] at hre
      cases hto : timeOfLoc a.versions f.location with
      | none => rw [hto] at hre; exact Option.noConfusion hre
      | some t =>
        rw [hto] at hre
        simp only [Option.some.injEq] at hre
        subst hre
        by_cases hc : t < pivot.time
        · rw [if_pos hc]
        · rw [if_neg hc]
    have hbytes : restoreFile _ f' = restoreFile a f :=
      restoreFile_after_trim a _ pivot pb sbs hbl hpb hsb hids hpn hpm htime f f'
        (hchain w hw hle f hf) hre
    rw [hname, hbytes]
  · -- w is the pivot itself
    have hweq : w.time = pivot.time := by omega
    have hwid : w.id = pivot.id := htime w hw hweq
    have hwp : w = pivot := nodup_map_inj (fun v => v.id) a.versions hids w hw pivot hpm hwid
    rw [hwp]
    refine ⟨pivotManifest pivot, List.mem_cons_self _ _, rfl, ?_⟩
    show (pivot.files.map (fun f => { f with location := pivot.id })).map
        (fun f => (f.name, restoreFile _ f)) =
      pivot.files.map (fun f => (f.name, restoreFile a f))
    rw [List.map_map]
    apply List.map_congr_left
    intro f hf
    show (f.name, restoreFile _ { f with location := pivot.id }) =
      (f.name, restoreFile a f)
    have h1 : restoreFile (Archive.mk (pivotManifest pivot :: rewritten) ((pivot.id, pb) :: sbs))
        { f with location := pivot.id } = lookupName pb f.name := by
      show (findBundle _ pivot.id).bind (fun b => lookupName b f.name) = lookupName pb f.name
      rw [findBundle_trim_pivot _ pivot pb sbs hbl]
      rfl
    rw [h1, restoreFile_pb a pivot pb hpb hpn f hf]

theorem trim_preserves_restore_witness :
    ∃ w' ∈ exampleTrimmed.versions, w'.id = exampleV2.id ∧
      restoreVersion exampleTrimmed w' = restoreVersion exampleArchive exampleV2 :=
  trim_preserves_restore exampleArchive exampleV2 exampleTrimmed (by decide) (by decide)
    (by decide) (by decide) (by decide) (by decide) exampleV2 (by decide) (by decide)

theorem buildTime_gt (now last : Nat) : last < buildTime now last := by
  rw [buildTime]
  split <;> omega

theorem sumSize_append (a b : List BackupFile) : sumSize (a ++ b) = sumSize a + sumSize b := by
  simp [sumSize]

theorem sumSize_cons (f : BackupFile) (l : List BackupFile) :
    sumSize (f :: l) = f.size + sumSize l := by
  simp [sumSize]

/-- The size invariant of one version: `size` totals all entries,
`sizedelta` totals the owned entries. -/
def SizeOK (v : BackupVersion) : Prop :=
  v.size = sumSize v.files ∧
  v.sizedelta = sumSize (v.files.filter (fun f => f.location = v.id))

/-- `Backup.save` at the manifest level: the working version is
committed exactly when it owns at least one entry. -/
def saveVersions (vs : List BackupVersion) (cur : BackupVersion) : List BackupVersion :=
  if ownedFiles cur = [] then vs else vs ++ [cur]

/-- Version lists producible by any sequence of program runs: a fresh
archive, a `build` followed by `save` (at an arbitrary wall clock and
against an arbitrary scanner output), or a `trim` at a version of the
archive.  The trim step requires its manifest rewrite to succeed; a
failing trim leaves the original archive in place and is covered by the
unchanged state. -/
inductive Reach : List BackupVersion → Prop where
  | init : Reach []
  | buildsave : ∀ (vs : List BackupVersion) (scan : List ScanFile) (now : Nat), Reach vs →
      Reach (saveVersions vs
        (buildVersion (latestVersion vs).files (buildTime now (latestVersion vs).time) scan))
  | trimstep : ∀ (vs vs' : List BackupVersion) (pivot : BackupVersion), Reach vs →
      pivot ∈ vs → trimManifests vs pivot = some vs' → Reach vs'

/-- Every entry's location resolves to a version that is not newer. -/
def LocOK (vs : List BackupVersion) : Prop :=
  ∀ v ∈ vs, ∀ f ∈ v.files, ∃ u ∈ vs, u.id = f.location ∧ u.time ≤ v.time

/-- The archive invariant carried through the reachability proof: ids
render times, times are distinct, locations resolve downward, and the
size accounting holds. -/
def ArchiveInv (vs : List BackupVersion) : Prop :=
  (∀ v ∈ vs, v.id = v.time) ∧ ((vs.map (fun v => v.time)).Nodup) ∧ LocOK vs ∧
    ∀ v ∈ vs, SizeOK v

theorem scanStep_id_time (vid : Nat) (lfiles : List BackupFile) (cur : BackupVersion)
    (s : ScanFile) :
    (scanStep vid lfiles cur s).id = cur.id ∧ (scanStep vid lfiles cur s).time = cur.time := by
  cases hfind : findFile lfiles s.name with
  | none => simp only [scanStep, hfind]; exact ⟨rfl, rfl⟩
  | some e =>
    simp only [scanStep, hfind]
    by_cases hc : s.mod = e.mod ∧ s.size = e.size
    · rw [if_pos hc]; exact ⟨rfl, rfl⟩
    · rw [if_neg hc]; exact ⟨rfl, rfl⟩

theorem foldl_scanStep_id_time (t : Nat) (lfiles : List BackupFile) :
    ∀ (scan : List ScanFile) (cur : BackupVersion),
      (scan.foldl (scanStep t lfiles) cur).id = cur.id ∧
      (scan.foldl (scanStep t lfiles) cur).time = cur.time := by
  intro scan
  induction scan with
  | nil => intro cur; exact ⟨rfl, rfl⟩
  | cons s rest ih =>
    intro cur
    rw [List.foldl_cons]
    obtain ⟨h1, h2⟩ := ih (scanStep t lfiles cur s)
    obtain ⟨h3, h4⟩ := scanStep_id_time t lfiles cur s
    exact ⟨h1.trans h3, h2.trans h4⟩

theorem buildVersion_id_time (lfiles : List BackupFile) (t : Nat) (scan : List ScanFile) :
    (buildVersion lfiles t scan).id = t ∧ (buildVersion lfiles t scan).time = t := by
  rw [buildVersion]
  exact foldl_scanStep_id_time t lfiles scan _

theorem scanStep_files_sub (vid : Nat) (lfiles : List BackupFile) (cur : BackupVersion)
    (s : ScanFile) (f : BackupFile) (hf : f ∈ (scanStep vid lfiles cur s).files) :
    f ∈ cur.files ∨ f ∈ lfiles ∨ f.location = vid := by
  rw [scanStep] at hf
  cases hfind : findFile lfiles s.name with
  | none =>
    simp only [hfind, addNewFile] at hf
    rcases List.mem_append.mp hf with h | h
    · exact Or.inl h
    · rcases List.mem_singleton.mp h with rfl
      exact Or.inr (Or.inr rfl)
  | some e =>
    simp only [hfind] at hf
    by_cases hc : s.mod = e.mod ∧ s.size = e.size
    · rw [if_pos hc] at hf
      rcases List.mem_append.mp hf with h | h
      · exact Or.inl h
      · rcases List.mem_singleton.mp h with rfl
        exact Or.inr (Or.inl (List.mem_of_find?_eq_some (by simpa [findFile] using hfind)))
    · rw [if_neg hc] at hf
      simp only [addNewFile] at hf
      rcases List.mem_append.mp hf with h | h
      · exact Or.inl h
      · rcases List.mem_singleton.mp h with rfl
        exact Or.inr (Or.inr rfl)

theorem foldl_scanStep_files (t : Nat) (lfiles : List BackupFile) :
    ∀ (scan : List ScanFile) (cur : BackupVersion) (f : BackupFile),
      f ∈ (scan.foldl (scanStep t lfiles) cur).files →
      f ∈ cur.files ∨ f ∈ lfiles ∨ f.location = t := by
  intro scan
  induction scan with
  | nil => intro cur f hf; exact Or.inl hf
  | cons s rest ih =>
    intro cur f hf
    rw [List.foldl_cons] at hf
    rcases ih (scanStep t lfiles cur s) f hf with h | h
    · exact scanStep_files_sub t lfiles cur s f h
    · exact Or.inr h

theorem buildVersion_files (lfiles : List BackupFile) (t : Nat) (scan : List ScanFile)
    (f : BackupFile) (hf : f ∈ (buildVersion lfiles t scan).files) :
    f ∈ lfiles ∨ f.location = t := by
  rw [buildVersion] at hf
  rcases foldl_scanStep_files t lfiles scan _ f hf with h | h
  · cases h
  · exact h

theorem scanStep_sizes (t : Nat) (lfiles : List BackupFile)
    (hfresh : ∀ p ∈ lfiles, p.location ≠ t) (cur : BackupVersion) (s : ScanFile)
    (h1 : cur.size = sumSize cur.files)
    (h2 : cur.sizedelta = sumSize (cur.files.filter (fun f => f.location = t))) :
    (scanStep t lfiles cur s).size = sumSize (scanStep t lfiles cur s).files ∧
    (scanStep t lfiles cur s).sizedelta =
      sumSize ((scanStep t lfiles cur s).files.filter (fun f => f.location = t)) := by
  cases hfind : findFile lfiles s.name with
  | none =>
    simp only [scanStep, hfind, addNewFile]
    constructor
    · rw [sumSize_append, ← h1, sumSize_cons]
      simp [sumSize]
    · rw [List.filter_append, sumSize_append, ← h2]
      simp [sumSize]
  | some e =>
    simp only [scanStep, hfind]
    by_cases hc : s.mod = e.mod ∧ s.size = e.size
    · rw [if_pos hc]
      have hne : e.location ≠ t :=
        hfresh e (List.mem_of_find?_eq_some (by simpa [findFile] using hfind))
      constructor
      · show cur.size + s.size = sumSize (cur.files ++ [e])
        rw [sumSize_append, ← h1, sumSize_cons, ← hc.2]
        simp [sumSize]
      · show cur.sizedelta =
          sumSize ((cur.files ++ [e]).filter (fun f => decide (f.location = t)))
        rw [List.filter_append, sumSize_append, ← h2]
        simp [sumSize, hne]
    · rw [if_neg hc]
      simp only [addNewFile]
      constructor
      · rw [sumSize_append, ← h1, sumSize_cons]
        simp [sumSize]
      · rw [List.filter_append, sumSize_append, ← h2]
        simp [sumSize]

theorem foldl_scanStep_sizes (t : Nat) (lfiles : List BackupFile)
    (hfresh : ∀ p ∈ lfiles, p.location ≠ t) :
    ∀ (scan : List ScanFile) (cur : BackupVersion),
      cur.size = sumSize cur.files →
      cur.sizedelta = sumSize (cur.files.filter (fun f => f.location = t)) →
      (scan.foldl (scanStep t lfiles) cur).size =
        sumSize (scan.foldl (scanStep t lfiles) cur).files ∧
      (scan.foldl (scanStep t lfiles) cur).sizedelta =
        sumSize ((scan.foldl (scanStep t lfiles) cur).files.filter
          (fun f => f.location = t)) := by
  intro scan
  induction scan with
  | nil => intro cur h1 h2; exact ⟨h1, h2⟩
  | cons s rest ih =>
    intro cur h1 h2
    rw [List.foldl_cons]
    obtain ⟨h3, h4⟩ := scanStep_sizes t lfiles hfresh cur s h1 h2
    exact ih (scanStep t lfiles cur s) h3 h4

theorem buildVersion_sizeOK (lfiles : List BackupFile) (t : Nat) (scan : List ScanFile)
    (hfresh : ∀ p ∈ lfiles, p.location ≠ t) :
    SizeOK (buildVersion lfiles t scan) := by
  obtain ⟨hid, _⟩ := buildVersion_id_time lfiles t scan
  obtain ⟨h1, h2⟩ := foldl_scanStep_sizes t lfiles hfresh scan
    { id := t, num := 0, time := t, size := 0, sizedelta := 0, newfiles := 0, files := [] }
    rfl rfl
  rw [buildVersion] at hid ⊢
  exact ⟨h1, by rw [hid]; exact h2⟩

theorem rewriteEntry_spec (vs : List BackupVersion) (pivot : BackupVersion) (f f' : BackupFile)
    (h : rewriteEntry vs pivot f = some f') :
    ∃ u ∈ vs, u.id = f.location ∧
      ((u.time < pivot.time ∧ f' = { f with location := pivot.id }) ∨
       (pivot.time ≤ u.time ∧ f' = f)) := by
  rw [rewriteEntry] at h
  cases hto : timeOfLoc vs f.location with
  | none => rw [hto] at h; exact Option.noConfusion h
  | some t =>
  rw [hto] at h
  simp only [Option.some.injEq] at h
  rw [timeOfLoc] at hto
  cases hfv : findVersion vs f.location with
  | none => rw [hfv] at hto; exact Option.noConfusion hto
  | some u0 =>
  rw [hfv] at hto
  simp only [Option.map_some', Option.some.injEq] at hto
  have hmem : u0 ∈ vs := List.mem_of_find?_eq_some (by simpa [findVersion] using hfv)
  have hid : u0.id = f.location := by
    have hx : List.find? (fun v => decide (v.id = f.location)) vs = some u0 := by
      simpa [findVersion] using hfv
    simpa using List.find?_some hx
  refine ⟨u0, hmem, hid, ?_⟩
  by_cases hlt : t < pivot.time
  · rw [if_pos hlt] at h
    exact Or.inl ⟨by omega, h.symm⟩
  · rw [if_neg hlt] at h
    exact Or.inr ⟨by omega, h.symm⟩

theorem sumSize_map_loc (l : List BackupFile) (x : Nat) :
    sumSize (l.map (fun f => { f with location := x })) = sumSize l := by
  induction l with
  | nil => rfl
  | cons f t ih => rw [List.map_cons, sumSize_cons, sumSize_cons, ih]

theorem mapOpt_sumSize_filter (fv : BackupFile → Option BackupFile)
    (p q : BackupFile → Bool) :
    ∀ (xs ys : List BackupFile), mapOpt fv xs = some ys →
      (∀ x ∈ xs, ∀ y, fv x = some y → y.size = x.size ∧ q y = p x) →
      sumSize (ys.filter q) = sumSize (xs.filter p) := by
  intro xs
  induction xs with
  | nil =>
    intro ys h _
    rw [mapOpt] at h
    simp only [Option.some.injEq] at h
    subst h
    rfl
  | cons a as ih =>
    intro ys h hpt
    obtain ⟨y, ys', hfa, hmo, rfl⟩ := mapOpt_cons_eq_some fv a as ys h
    obtain ⟨hsz, hq⟩ := hpt a (List.mem_cons_self _ _) y hfa
    have ihx := ih ys' hmo (fun x hx => hpt x (List.mem_cons_of_mem _ hx))
    rw [List.filter_cons, List.filter_cons, hq]
    cases hpa : p a with
    | true =>
      rw [if_pos rfl, if_pos rfl, sumSize_cons, sumSize_cons, hsz, ihx]
    | false =>
      rw [if_neg (by simp), if_neg (by simp)]
      exact ihx

/-- The archive invariant holds in every reachable archive. -/
theorem reach_inv : ∀ vs : List BackupVersion, Reach vs → ArchiveInv vs := by
  intro vs0 h
  induction h with
  | init =>
    refine ⟨?_, ?_, ?_, ?_⟩
    · intro v hv; cases hv
    · exact List.nodup_nil
    · intro v hv; cases hv
    · intro v hv; cases hv
  | buildsave vs scan now _ ih =>
    obtain ⟨hA, hB, hC, hD⟩ := ih
    rw [saveVersions]
    by_cases he : ownedFiles (buildVersion (latestVersion vs).files
        (buildTime now (latestVersion vs).time) scan) = []
    · rw [if_pos he]
      exact ⟨hA, hB, hC, hD⟩
    · rw [if_neg he]
      obtain ⟨hcid, hctime⟩ := buildVersion_id_time (latestVersion vs).files
        (buildTime now (latestVersion vs).time) scan
      have hlt : ∀ v ∈ vs, v.time < buildTime now (latestVersion vs).time := by
        intro v hv
        exact lt_of_le_of_lt (mem_time_le_latest vs emptyVersion v hv)
          (buildTime_gt now (latestVersion vs).time)
      have hLfiles : ∀ p ∈ (latestVersion vs).files,
          ∃ u ∈ vs, u.id = p.location ∧ u.time ≤ (latestVersion vs).time := by
        intro p hp
        rcases foldl_latest_mem vs emptyVersion with hin | hempty
        · exact hC _ hin p hp
        · rw [latestVersion, hempty] at hp
          simp [emptyVersion] at hp
      refine ⟨?_, ?_, ?_, ?_⟩
      · intro v hv
        rcases List.mem_append.mp hv with hv' | hv'
        · exact hA v hv'
        · rcases List.mem_singleton.mp hv' with rfl
          rw [hcid, hctime]
      · rw [List.map_append, List.nodup_append]
        refine ⟨hB, by simp, ?_⟩
        intro x hx1 hx2
        obtain ⟨v, hv, rfl⟩ := List.mem_map.mp hx1
        simp only [List.map_cons, List.map_nil, List.mem_singleton] at hx2
        have h1 := hlt v hv
        rw [hx2, hctime] at h1
        exact absurd h1 (lt_irrefl _)
      · intro v hv f hf
        rcases List.mem_append.mp hv with hv' | hv'
        · obtain ⟨u, hu, h1, h2⟩ := hC v hv' f hf
          exact ⟨u, List.mem_append_left _ hu, h1, h2⟩
        · rcases List.mem_singleton.mp hv' with rfl
          rcases buildVersion_files _ _ _ f hf with hfl | hfl
          · obtain ⟨u, hu, h1, h2⟩ := hLfiles f hfl
            refine ⟨u, List.mem_append_left _ hu, h1, ?_⟩
            have h3 := buildTime_gt now (latestVersion vs).time
            rw [hctime]
            omega
          · refine ⟨_, List.mem_append_right _ (List.mem_singleton_self _), ?_, le_refl _⟩
            rw [hcid, hfl]
      · intro v hv
        rcases List.mem_append.mp hv with hv' | hv'
        · exact hD v hv'
        · rcases List.mem_singleton.mp hv' with rfl
          apply buildVersion_sizeOK
          intro p hp hploc
          obtain ⟨u, hu, h1, h2⟩ := hLfiles p hp
          have h3 := hA u hu
          have h4 := buildTime_gt now (latestVersion vs).time
          rw [hploc] at h1
          omega
  | trimstep vs vs' pivot _ hpm htm ih =>
    obtain ⟨hA, hB, hC, hD⟩ := ih
    have hids : (vs.map (fun v => v.id)).Nodup := by
      have hmape : vs.map (fun v => v.id) = vs.map (fun v => v.time) :=
        List.map_congr_left (fun v hv => hA v hv)
      rw [hmape]
      exact hB
    rw [trimManifests] at htm
    cases hrw : mapOpt (rewriteVersion vs pivot) (survivorsOf vs pivot) with
    | none => rw [hrw] at htm; exact Option.noConfusion htm
    | some rewritten =>
    rw [hrw] at htm
    simp only [Option.some.injEq] at htm
    subst htm
    have hmemchar : ∀ w' ∈ rewritten, ∃ w, w ∈ vs ∧ pivot.time < w.time ∧
        ∃ fs, mapOpt (rewriteEntry vs pivot) w.files = some fs ∧
          w' = { w with files := fs } := by
      intro w' hw'
      obtain ⟨w, hwmem, hrv⟩ := mapOpt_backward _ _ _ hrw w' hw'
      obtain ⟨hw1, hw2⟩ := (mem_survivorsOf vs pivot w).mp hwmem
      rw [rewriteVersion] at hrv
      cases hfs : mapOpt (rewriteEntry vs pivot) w.files with
      | none => rw [hfs] at hrv; exact Option.noConfusion hrv
      | some fs =>
        rw [hfs] at hrv
        simp only [Option.some.injEq] at hrv
        exact ⟨w, hw1, hw2, fs, hfs, hrv.symm⟩
    refine ⟨?_, ?_, ?_, ?_⟩
    · intro v hv
      rcases List.mem_cons.mp hv with rfl | hv'
      · show pivot.id = pivot.time
        exact hA pivot hpm
      · obtain ⟨w, hw1, _, fs, _, rfl⟩ := hmemchar v hv'
        show w.id = w.time
        exact hA w hw1
    · have hmt : rewritten.map (fun v => v.time) =
          (survivorsOf vs pivot).map (fun v => v.time) := by
        apply mapOpt_map_eq (rewriteVersion vs pivot) _ _ _ _ hrw
        intro w hw w' hrv
        rw [rewriteVersion] at hrv
        cases hfs : mapOpt (rewriteEntry vs pivot) w.files with
        | none => rw [hfs] at hrv; exact Option.noConfusion hrv
        | some fs =>
          rw [hfs] at hrv
          simp only [Option.some.injEq] at hrv
          rw [← hrv]
      rw [List.map_cons, List.nodup_cons]
      constructor
      · show (pivotManifest pivot).time ∉ rewritten.map (fun v => v.time)
        rw [hmt]
        intro hxin
        obtain ⟨w, hw, hweq⟩ := List.mem_map.mp hxin
        have hw2 := ((mem_survivorsOf vs pivot w).mp hw).2
        have hweq2 : w.time = pivot.time := hweq
        omega
      · rw [hmt, survivorsOf]
        have hperm := (sortByTime_perm (vs.filter (fun v => pivot.time < v.time))).map
          (fun v => v.time)
        rw [hperm.nodup_iff]
        exact hB.sublist ((vs.filter_sublist).map (fun v => v.time))
    · intro v' hv' f' hf'
      rcases List.mem_cons.mp hv' with rfl | hv2
      · obtain ⟨f, hfm, rfl⟩ := List.mem_map.mp hf'
        exact ⟨pivotManifest pivot, List.mem_cons_self _ _, rfl, le_refl _⟩
      · obtain ⟨w, hw1, hw2, fs, hfs, rfl⟩ := hmemchar v' hv2
        obtain ⟨f, hfmem, hre⟩ := mapOpt_backward _ _ _ hfs f' hf'
        obtain ⟨u0, hu0, hu0id, hcase⟩ := rewriteEntry_spec vs pivot f f' hre
        rcases hcase with ⟨hlt, rfl⟩ | ⟨hge, rfl⟩
        · refine ⟨pivotManifest pivot, List.mem_cons_self _ _, rfl, ?_⟩
          show pivot.time ≤ w.time
          omega
        · by_cases heq : u0.time = pivot.time
          · have hup : u0 = pivot := nodup_map_inj (fun v => v.time) vs hB u0 hu0 pivot hpm heq
            refine ⟨pivotManifest pivot, List.mem_cons_self _ _, ?_, ?_⟩
            · exact hup ▸ hu0id
            · show pivot.time ≤ w.time
              omega
          · have hgt : pivot.time < u0.time := by omega
            have hu0surv : u0 ∈ survivorsOf vs pivot :=
              (mem_survivorsOf vs pivot u0).mpr ⟨hu0, hgt⟩
            obtain ⟨u0', hu0'mem, hru0⟩ := mapOpt_forward _ _ _ hrw u0 hu0surv
            rw [rewriteVersion] at hru0
            cases hgs : mapOpt (rewriteEntry vs pivot) u0.files with
            | none => rw [hgs] at hru0; exact Option.noConfusion hru0
            | some gs =>
            rw [hgs] at hru0
            simp only [Option.some.injEq] at hru0
            subst hru0
            refine ⟨{ u0 with files := gs }, List.mem_cons_of_mem _ hu0'mem, ?_, ?_⟩
            · exact hu0id
            · show u0.time ≤ w.time
              obtain ⟨u1, hu1, hu1id, hu1t⟩ := hC w hw1 _ hfmem
              have hue : u1 = u0 := nodup_map_inj (fun v => v.id) vs hids u1 hu1 u0 hu0
                (by show u1.id = u0.id; rw [hu1id, hu0id])
              rw [← hue]
              exact hu1t
    · intro v' hv'
      rcases List.mem_cons.mp hv' with rfl | hv2
      · obtain ⟨hs1, hs2⟩ := hD pivot hpm
        constructor
        · show pivot.size =
            sumSize (pivot.files.map (fun f => { f with location := pivot.id }))
          rw [sumSize_map_loc]
          exact hs1
        · show pivot.size =
            sumSize ((pivot.files.map (fun f => { f with location := pivot.id })).filter
              (fun f => decide (f.location = (pivotManifest pivot).id)))
          have hfe : (pivot.files.map (fun f => { f with location := pivot.id })).filter
              (fun f => decide (f.location = (pivotManifest pivot).id)) =
              pivot.files.map (fun f => { f with location := pivot.id }) := by
            rw [List.filter_eq_self]
            intro f hfm
            obtain ⟨g, _, rfl⟩ := List.mem_map.mp hfm
            simp [pivotManifest]
          rw [hfe, sumSize_map_loc]
          exact hs1
      · obtain ⟨w, hw1, hw2, fs, hfs, rfl⟩ := hmemchar v' hv2
        obtain ⟨hs1, hs2⟩ := hD w hw1
        constructor
        · show w.size = sumSize fs
          have hms : fs.map (fun f => f.size) = w.files.map (fun f => f.size) := by
            apply mapOpt_map_eq (rewriteEntry vs pivot) _ _ _ _ hfs
            intro f hfm f' hre
            obtain ⟨u0, _, _, hcase⟩ := rewriteEntry_spec vs pivot f f' hre
            rcases hcase with ⟨_, rfl⟩ | ⟨_, rfl⟩ <;> rfl
          rw [hs1, sumSize, sumSize, hms]
        · show w.sizedelta = sumSize (fs.filter (fun f => decide (f.location = w.id)))
          rw [hs2]
          apply Eq.symm
          apply mapOpt_sumSize_filter (rewriteEntry vs pivot) _ _ w.files fs hfs
          intro f hfm f' hre
          obtain ⟨u0, hu0, hu0id, hcase⟩ := rewriteEntry_spec vs pivot f f' hre
          have e1 := hA pivot hpm
          have e2 := hA w hw1
          have e3 := hA u0 hu0
          rcases hcase with ⟨hlt, rfl⟩ | ⟨_, rfl⟩
          · refine ⟨rfl, ?_⟩
            show decide (pivot.id = w.id) = decide (f.location = w.id)
            have hne1 : ¬ pivot.id = w.id := by omega
            have hne2 : ¬ f.location = w.id := by
              rw [← hu0id]
              omega
            rw [decide_eq_false hne1, decide_eq_false hne2]
          · exact ⟨rfl, rfl⟩

/-- C4: size accounting.  In every archive reachable by any sequence of
build, save, and trim operations, every version's `size` is the sum of
its entries' sizes, and its `sizedelta` is the sum of the sizes of the
entries it owns (those whose `location` is the version's own id). -/
theorem size_accounting_invariant (vs : List BackupVersion) (h : Reach vs) :
    ∀ v ∈ vs, v.size = sumSize v.files ∧
      v.sizedelta = sumSize (v.files.filter (fun f => f.location = v.id)) :=
  (reach_inv vs h).2.2.2

/-- The version committed by the first build+save of the witness run. -/
def exampleBuiltVer : BackupVersion :=
  { id := 100, num := 0, time := 100, size := 5, sizedelta := 5, newfiles := 1,
    files := [{ name := "a", size := 5, mod := 10, location := 100 }] }

theorem size_accounting_invariant_witness :
    exampleBuiltVer.size = sumSize exampleBuiltVer.files ∧
      exampleBuiltVer.sizedelta =
        sumSize (exampleBuiltVer.files.filter (fun f => f.location = exampleBuiltVer.id)) := by
  have h0 := Reach.buildsave [] [{ name := "a", size := 5, mod := 10 }] 100 Reach.init
  have he : saveVersions []
      (buildVersion (latestVersion []).files (buildTime 100 (latestVersion []).time)
        [{ name := "a", size := 5, mod := 10 }]) = [exampleBuiltVer] := by decide
  rw [he] at h0
  exact size_accounting_invariant [exampleBuiltVer] h0 exampleBuiltVer (by decide)
